import Mathlib

set_option maxRecDepth 10000

/-!
Verification of the binary-cookie-extractor decoding core
(`src/binary-cookie-extractor.go`) against its specification.

Bytes are modelled as `Nat` (a well-formed byte is `< 256`); byte buffers
are `List Nat`.  Go slice expressions `data[a:b]` and `data[a:]` panic when
the bounds are out of range, so every function that slices returns an
`Option`, with `none` standing for the run-time panic (bounds are checked
against the slice length, as for a freshly read buffer).  Integer fields
are `Nat`/`Int` with explicit clamping where the Go code can overflow.
-/

namespace BinaryCookie

/-- Go slice expression `data[a:b]`: defined when `a ≤ b ≤ len(data)`,
otherwise a run-time panic (`none`). -/
def goSlice (data : List Nat) (a b : Nat) : Option (List Nat) :=
  if a ≤ b ∧ b ≤ data.length then some ((data.drop a).take (b - a)) else none

/-- Go slice expression `data[a:]`: defined when `a ≤ len(data)`,
otherwise a run-time panic (`none`). -/
def goSliceFrom (data : List Nat) (a : Nat) : Option (List Nat) :=
  if a ≤ data.length then some (data.drop a) else none

/-- `reverseByteSlice` (source lines 351–357): loops `i` from `len(data)-1`
down to `0`, appending `data[i]` to a fresh slice. -/
def reverseByteSlice : List Nat → List Nat
  | [] => []
  | b :: rest => reverseByteSlice rest ++ [b]

/-- `convertHexToUint` (source lines 377–381): `hex.EncodeToString` writes
the bytes as a hex string most-significant-nibble first, and
`strconv.ParseUint(a, 16, 64)` reads that string back, which is the
big-endian base-256 value of the bytes; on range overflow `ParseUint`
returns the maximum 64-bit value (the error is discarded at every call
site). -/
def convertHexToUint (bs : List Nat) : Nat :=
  min (bs.foldl (fun acc b => acc * 256 + b) 0) (2 ^ 64 - 1)

/-- The two hex digits (most significant first) that `hex.EncodeToString`
writes for one byte. -/
def hexDigitsOfByte (b : Nat) : List Nat := [b / 16, b % 16]

/-- `strconv.ParseUint(s, 10, 64)` applied to a hex string given as its
digit values: it succeeds only when the string is nonempty and every hex
digit is also a decimal digit, and the discarded-error call site sees `0`
on a syntax error; on range overflow it sees the maximum 64-bit value. -/
def parseHexStringAsDecimal (ds : List Nat) : Nat :=
  if ds ≠ [] ∧ ∀ d ∈ ds, d < 10 then
    min (ds.foldl (fun acc d => acc * 10 + d) 0) (2 ^ 64 - 1)
  else 0

/-- The cookie-count read of `extractCookiesFromPages` (source line 264):
`strconv.ParseUint(hex.EncodeToString(reverseByteSlice(rawBytes[4:8])), 10, 64)`. -/
def parseCookieCount (pageBytes : List Nat) : Option Nat := do
  let field ← goSlice pageBytes 4 8
  pure (parseHexStringAsDecimal (((reverseByteSlice field).map hexDigitsOfByte).flatten))

/-- Big-endian (stored-order) base-256 value of a byte list. -/
def beVal (bs : List Nat) : Nat := bs.foldl (fun acc b => acc * 256 + b) 0

/-- Little-endian base-256 value of a byte list (least significant byte
first). -/
def leVal (bs : List Nat) : Nat := bs.foldr (fun b acc => b + 256 * acc) 0

/-- `scanUntilNullByte` (source lines 338–348): collects bytes until the
first `0x00`, which is excluded. -/
def scanUntilNullByte : List Nat → List Nat
  | [] => []
  | b :: rest => if b = 0 then [] else b :: scanUntilNullByte rest

/-- The flag-text switch of `decodeCookies` (source lines 205–219). -/
def flagsText (v : Nat) : String :=
  match v with
  | 0 => "None"
  | 1 => "Secure"
  | 4 => "HttpOnly"
  | 5 => "Secure; HttpOnly"
  | _ => "Unknown"

/-- Outcome of `checkFileMagicNumber` (source lines 441–447): `data[:4]`
panics when the buffer is shorter than 4 bytes; otherwise the program
either proceeds or prints the invalid-format message and exits. -/
inductive CheckResult where
  | ok : CheckResult
  | invalidFormat : CheckResult
  | panicked : CheckResult
deriving DecidableEq

/-- The ASCII bytes of the magic string `cook`. -/
def cookMagic : List Nat := [99, 111, 111, 107]

/-- `checkFileMagicNumber` (source lines 441–447). -/
def checkFileMagicNumber (data : List Nat) : CheckResult :=
  if data.length < 4 then .panicked
  else if data.take 4 = cookMagic then .ok
  else .invalidFormat

/-- The loop of `parseSizeOfPages` (source lines 360–374): reads `n`
4-byte big-endian values starting at byte `start`. -/
def parseSizeOfPagesAux (data : List Nat) : Nat → Nat → Option (List Nat)
  | _, 0 => some []
  | start, n + 1 => do
    let s ← goSlice data start (start + 4)
    let rest ← parseSizeOfPagesAux data (start + 4) n
    pure (convertHexToUint s :: rest)

/-- `parseSizeOfPages` (source lines 360–374): the sizes table starts at
byte offset 8. -/
def parseSizeOfPages (data : List Nat) (numPages : Nat) : Option (List Nat) :=
  parseSizeOfPagesAux data 8 numPages

/-- The result record of `extractPages` (the `pages` struct, source lines
36–41; raw page payloads plus header data). -/
structure PagesData where
  pages : List (List Nat)
  numPages : Nat
  pageSizes : List Nat
  headerSize : Nat
deriving DecidableEq

/-- The page-slicing loop of `extractPages` (source lines 315–332): for a
non-final size entry the slice is
`data[headerSize+offsetCounter : headerSize+pageSizes[i]]` and the counter
advances by the size; the final entry slices to the end of the buffer. -/
def extractPagesAux (data : List Nat) (headerSize : Nat) :
    List Nat → Nat → Option (List (List Nat))
  | [], _ => some []
  | [_], offsetCounter =>
    (goSliceFrom data (headerSize + offsetCounter)).map (fun raw => [raw])
  | sz :: sz2 :: rest, offsetCounter => do
    let raw ← goSlice data (headerSize + offsetCounter) (headerSize + sz)
    let others ← extractPagesAux data headerSize (sz2 :: rest) (offsetCounter + sz)
    pure (raw :: others)

/-- `extractPages` (source lines 303–334). -/
def extractPages (data : List Nat) : Option PagesData := do
  let hdr ← goSlice data 4 8
  let numPages := convertHexToUint hdr
  let pageSizes ← parseSizeOfPages data numPages
  let headerSize := numPages * 4 + 8
  let pgs ← extractPagesAux data headerSize pageSizes 0
  pure ⟨pgs, numPages, pageSizes, headerSize⟩

/-- The offset-table loop of `extractCookiesFromPages` (source lines
271–277): reads `n` 4-byte little-endian (byte-reversed, base-16) offsets
starting at byte `start` of the page. -/
def readCookieOffsets (pageBytes : List Nat) : Nat → Nat → Option (List Nat)
  | _, 0 => some []
  | start, n + 1 => do
    let s ← goSlice pageBytes start (start + 4)
    let rest ← readCookieOffsets pageBytes (start + 4) n
    pure (convertHexToUint (reverseByteSlice s) :: rest)

/-- The record-carving loop of `extractCookiesFromPages` (source lines
280–297): consecutive offset pairs delimit raw records, the final record
running to the end of the page. -/
def carveRecords (pageBytes : List Nat) : List Nat → Option (List (List Nat))
  | [] => some []
  | [off] => (goSliceFrom pageBytes off).map (fun r => [r])
  | off :: off2 :: rest => do
    let r ← goSlice pageBytes off off2
    let others ← carveRecords pageBytes (off2 :: rest)
    pure (r :: others)

/-- The per-page body of `extractCookiesFromPages` (source lines 260–300). -/
def extractRecordsFromPage (pageBytes : List Nat) : Option (List (List Nat)) := do
  let count ← parseCookieCount pageBytes
  let offs ← readCookieOffsets pageBytes 8 count
  carveRecords pageBytes offs

/-- `extractCookiesFromPages` over the whole page list (source lines
260–300), collecting each page's raw records in order. -/
def extractCookiesFromPages : List (List Nat) → Option (List (List (List Nat)))
  | [] => some []
  | p :: rest => do
    let recs ← extractRecordsFromPage p
    let others ← extractCookiesFromPages rest
    pure (recs :: others)

/-- Wrap of signed 64-bit integer arithmetic. -/
def int64Wrap (x : Int) : Int := (x + 2 ^ 63) % 2 ^ 64 - 2 ^ 63

/-- `math.Float64frombits` followed by the Go conversion `int64(c)`: the
exact truncation toward zero of the IEEE-754 binary64 value with the given
bit pattern.  For NaN, infinities and values outside the `int64` range the
amd64 conversion yields `-2^63`. -/
def float64TruncToInt (bits : Nat) : Int :=
  let sign := bits / 2 ^ 63 % 2
  let expField := bits / 2 ^ 52 % 2 ^ 11
  let frac := bits % 2 ^ 52
  if expField = 2047 then -(2 ^ 63)
  else
    let mantissa := if expField = 0 then frac else frac + 2 ^ 52
    let e := if expField = 0 then 1 else expField
    let mag : Nat :=
      if 1075 ≤ e then mantissa * 2 ^ (e - 1075) else mantissa / 2 ^ (1075 - e)
    let v : Int := if sign = 1 then -(mag : Int) else (mag : Int)
    if v < -(2 ^ 63) ∨ 2 ^ 63 ≤ v then -(2 ^ 63) else v

/-- `convertHexToCoreDataTime` (source lines 385–393): hex-encode the
reversed bytes, parse base-16, reinterpret the bits as a float64, truncate
to `int64`, and add 978307200; the result is the Unix-seconds instant of
`time.Unix`. -/
def convertHexToCoreDataTime (bs : List Nat) : Int :=
  int64Wrap (float64TruncToInt (convertHexToUint (reverseByteSlice bs)) + 978307200)

/-- One decoded cookie (the exported fields of the `cookie` struct, source
lines 50–60; text fields kept as raw byte lists, timestamps as
Unix-seconds instants). -/
structure CookieRecord where
  rawBytes : List Nat
  size : Nat
  name : List Nat
  value : List Nat
  domain : List Nat
  path : List Nat
  flags : String
  expires : Int
  lastAccessed : Int
deriving DecidableEq

/-- The per-record body of `decodeCookies` (source lines 188–256), with
each Go slice expression checked as in the source order. -/
def decodeCookie (r : List Nat) : Option CookieRecord := do
  let a ← goSlice r 0 4
  let sizeVal := convertHexToUint (reverseByteSlice a)
  let fb ← goSlice r 8 12
  let flagVal := convertHexToUint (reverseByteSlice fb)
  let db ← goSlice r 16 20
  let domainOffset := convertHexToUint (reverseByteSlice db)
  let nb ← goSlice r 20 24
  let nameOffset := convertHexToUint (reverseByteSlice nb)
  let pb ← goSlice r 24 28
  let pathOffset := convertHexToUint (reverseByteSlice pb)
  let vb ← goSlice r 28 32
  let valueOffset := convertHexToUint (reverseByteSlice vb)
  let nSlice ← goSliceFrom r nameOffset
  let vSlice ← goSliceFrom r valueOffset
  let dSlice ← goSliceFrom r domainOffset
  let pSlice ← goSliceFrom r pathOffset
  let expiresRaw ← goSlice r 40 48
  let lastAccessedRaw ← goSlice r 48 56
  pure { rawBytes := r
         size := sizeVal
         name := scanUntilNullByte nSlice
         value := scanUntilNullByte vSlice
         domain := scanUntilNullByte dSlice
         path := scanUntilNullByte pSlice
         flags := flagsText flagVal
         expires := convertHexToCoreDataTime expiresRaw
         lastAccessed := convertHexToCoreDataTime lastAccessedRaw }

/-- `decodeCookies` over a flat record list (source lines 188–256),
decoding in order and appending to the output slice. -/
def decodeCookies : List (List Nat) → Option (List CookieRecord)
  | [] => some []
  | r :: rest => do
    let c ← decodeCookie r
    let cs ← decodeCookies rest
    pure (c :: cs)

/-- The decoding pipeline of `main` (source lines 74–88): magic check,
page extraction, record extraction, record decoding; the decoded cookies
are appended page by page and, within a page, record by record. -/
def decodePipeline (data : List Nat) : Option (List CookieRecord) := do
  let pd ← extractPages data
  let recss ← extractCookiesFromPages pd.pages
  decodeCookies recss.flatten

/-- The 4-byte little-endian field of a record starting at byte `i`, as
`decodeCookies` reads it (byte-reverse then base-16 parse). -/
def recField (r : List Nat) (i : Nat) : Nat :=
  convertHexToUint (reverseByteSlice ((r.drop i).take 4))

end BinaryCookie

namespace BinaryCookie

theorem reverseByteSlice_eq_reverse (l : List Nat) : reverseByteSlice l = l.reverse := by
  induction l with
  | nil => rfl
  | cons b rest ih => simp [reverseByteSlice, ih]

theorem scanUntilNullByte_eq_takeWhile (l : List Nat) :
    scanUntilNullByte l = l.takeWhile (fun b => b != 0) := by
  induction l with
  | nil => rfl
  | cons b rest ih =>
    by_cases hb : b = 0 <;> simp [scanUntilNullByte, List.takeWhile_cons, hb, ih]

theorem beVal_reverse_eq_leVal (l : List Nat) : beVal l.reverse = leVal l := by
  induction l with
  | nil => rfl
  | cons b rest ih =>
    simp only [beVal, leVal, List.reverse_cons, List.foldl_append, List.foldl_cons,
      List.foldl_nil, List.foldr_cons] at *
    omega

theorem beVal_lt (l : List Nat) (hb : ∀ b ∈ l, b < 256) : beVal l < 256 ^ l.length := by
  suffices h : ∀ acc, l.foldl (fun a b => a * 256 + b) acc < (acc + 1) * 256 ^ l.length by
    have := h 0
    simpa [beVal] using this
  induction l with
  | nil => intro acc; simpa using Nat.lt_succ_self acc
  | cons b rest ih =>
    intro acc
    have hb0 : b < 256 := hb b (List.mem_cons_self b rest)
    have ih0 := ih (fun x hx => hb x (List.mem_cons_of_mem b hx)) (acc * 256 + b)
    simp only [List.foldl_cons, List.length_cons]
    calc rest.foldl (fun a b => a * 256 + b) (acc * 256 + b)
        < (acc * 256 + b + 1) * 256 ^ rest.length := ih0
      _ ≤ (acc + 1) * 256 ^ (rest.length + 1) := by ring_nf; nlinarith [Nat.pos_pow_of_pos rest.length (by norm_num : 0 < 256)]

theorem convertHexToUint_eq_beVal (l : List Nat) (hb : ∀ b ∈ l, b < 256)
    (hlen : l.length ≤ 8) : convertHexToUint l = beVal l := by
  have h1 : beVal l < 256 ^ l.length := beVal_lt l hb
  have h2 : (256 : Nat) ^ l.length ≤ 256 ^ 8 := Nat.pow_le_pow_right (by norm_num) hlen
  have : beVal l ≤ 2 ^ 64 - 1 := by
    have : beVal l < 2 ^ 64 := by
      calc beVal l < 256 ^ l.length := h1
        _ ≤ 256 ^ 8 := h2
        _ = 2 ^ 64 := by norm_num
    omega
  simpa [convertHexToUint, beVal] using Nat.min_eq_left this

/-- C10: the byte-order helper is a length-preserving involution: for every
byte slice `s`, `reverseByteSlice s` has the same length as `s`, and
`reverseByteSlice (reverseByteSlice s) = s`. -/
theorem reverseByteSlice_involutive (s : List Nat) :
    (reverseByteSlice s).length = s.length ∧
    reverseByteSlice (reverseByteSlice s) = s := by
  simp [reverseByteSlice_eq_reverse]

/-- A page whose cookie-count field bytes `[4,8)` are `[0x10,0,0,0]`
(little-endian value 16). -/
def countBugPage : List Nat := [0, 0, 0, 0, 16, 0, 0, 0]

/-- A page whose cookie-count field bytes `[4,8)` are `[0x0a,0,0,0]`
(little-endian value 10). -/
def countBugPageHex : List Nat := [0, 0, 0, 0, 10, 0, 0, 0]

/-- C1 is false of the code: the RecordSplitter hex-encodes the reversed
count bytes and parses the string as base-10, so the count field with
little-endian value 16 parses as 10, and the field with little-endian
value 10 (hex digit `a`) fails the decimal parse and yields 0;
the claim says the parsed count always equals the little-endian value. -/
theorem cookieCount_decimal_parse_bug :
    parseCookieCount countBugPage = some 10 ∧
    leVal ((countBugPage.drop 4).take 4) = 16 ∧
    parseCookieCount countBugPageHex = some 0 ∧
    leVal ((countBugPageHex.drop 4).take 4) = 10 := by
  decide

/-- C6 counterexample: the 4-byte buffer `cook` is shorter than 8 bytes,
yet the ContainerValidator does not fail on it — it reports success. -/
theorem magicCheck_short_cook_passes :
    checkFileMagicNumber cookMagic = CheckResult.ok ∧ cookMagic.length < 8 := by
  decide

/-- C6 amended: the ContainerValidator fails with InvalidFormat exactly
when the buffer has at least 4 bytes and its first 4 bytes differ from the
ASCII magic `cook`; there is no minimum-length-8 check (a 4-to-7-byte
buffer starting `cook` passes), and on a buffer shorter than 4 bytes the
`data[:4]` slice panics rather than failing cleanly. -/
theorem magicCheck_characterization (data : List Nat) :
    (checkFileMagicNumber data = CheckResult.invalidFormat ↔
      4 ≤ data.length ∧ data.take 4 ≠ cookMagic) ∧
    (checkFileMagicNumber data = CheckResult.panicked ↔ data.length < 4) := by
  unfold checkFileMagicNumber
  split_ifs with h1 h2 <;>
    constructor <;> constructor <;> intro h <;> simp_all <;> omega

end BinaryCookie

namespace BinaryCookie

theorem goSlice_inv {data : List Nat} {a b : Nat} {s : List Nat}
    (h : goSlice data a b = some s) :
    a ≤ b ∧ b ≤ data.length ∧ s = (data.drop a).take (b - a) := by
  unfold goSlice at h
  split_ifs at h with hc
  exact ⟨hc.1, hc.2, (Option.some.inj h).symm⟩

theorem goSliceFrom_inv {data : List Nat} {a : Nat} {s : List Nat}
    (h : goSliceFrom data a = some s) : a ≤ data.length ∧ s = data.drop a := by
  unfold goSliceFrom at h
  split_ifs at h with hc
  exact ⟨hc, (Option.some.inj h).symm⟩

/-- The record `decodeCookie` produces on success, with every field read
written out explicitly in terms of the record bytes. -/
def decodedRecord (r : List Nat) : CookieRecord :=
  { rawBytes := r
    size := recField r 0
    name := scanUntilNullByte (r.drop (recField r 20))
    value := scanUntilNullByte (r.drop (recField r 28))
    domain := scanUntilNullByte (r.drop (recField r 16))
    path := scanUntilNullByte (r.drop (recField r 24))
    flags := flagsText (recField r 8)
    expires := convertHexToCoreDataTime ((r.drop 40).take 8)
    lastAccessed := convertHexToCoreDataTime ((r.drop 48).take 8) }

theorem decodeCookie_inv {r : List Nat} {c : CookieRecord}
    (h : decodeCookie r = some c) :
    56 ≤ r.length ∧ recField r 16 ≤ r.length ∧ recField r 20 ≤ r.length ∧
    recField r 24 ≤ r.length ∧ recField r 28 ≤ r.length ∧ c = decodedRecord r := by
  rw [decodeCookie] at h
  rcases Option.bind_eq_some.mp h with ⟨a, ha, h⟩
  rcases Option.bind_eq_some.mp h with ⟨fb, hfb, h⟩
  rcases Option.bind_eq_some.mp h with ⟨db, hdb, h⟩
  rcases Option.bind_eq_some.mp h with ⟨nb, hnb, h⟩
  rcases Option.bind_eq_some.mp h with ⟨pb, hpb, h⟩
  rcases Option.bind_eq_some.mp h with ⟨vb, hvb, h⟩
  rcases Option.bind_eq_some.mp h with ⟨nS, hnS, h⟩
  rcases Option.bind_eq_some.mp h with ⟨vS, hvS, h⟩
  rcases Option.bind_eq_some.mp h with ⟨dS, hdS, h⟩
  rcases Option.bind_eq_some.mp h with ⟨pS, hpS, h⟩
  rcases Option.bind_eq_some.mp h with ⟨eR, heR, h⟩
  rcases Option.bind_eq_some.mp h with ⟨lR, hlR, h⟩
  obtain ⟨-, -, ha3⟩ := goSlice_inv ha
  obtain ⟨-, -, hfb3⟩ := goSlice_inv hfb
  obtain ⟨-, -, hdb3⟩ := goSlice_inv hdb
  obtain ⟨-, -, hnb3⟩ := goSlice_inv hnb
  obtain ⟨-, -, hpb3⟩ := goSlice_inv hpb
  obtain ⟨-, -, hvb3⟩ := goSlice_inv hvb
  obtain ⟨-, -, heR3⟩ := goSlice_inv heR
  obtain ⟨-, hlen56, hlR3⟩ := goSlice_inv hlR
  subst ha3 hfb3 hdb3 hnb3 hpb3 hvb3 heR3 hlR3
  obtain ⟨hnS1, hnS2⟩ := goSliceFrom_inv hnS
  obtain ⟨hvS1, hvS2⟩ := goSliceFrom_inv hvS
  obtain ⟨hdS1, hdS2⟩ := goSliceFrom_inv hdS
  obtain ⟨hpS1, hpS2⟩ := goSliceFrom_inv hpS
  subst hnS2 hvS2 hdS2 hpS2
  simp only [Option.pure_def, Option.some.injEq] at h
  subst h
  refine ⟨hlen56, ?_, ?_, ?_, ?_, ?_⟩
  · simpa [recField] using hdS1
  · simpa [recField] using hnS1
  · simpa [recField] using hpS1
  · simpa [recField] using hvS1
  · simp [decodedRecord, recField]

/-- C3: each of the four text fields is exactly the bytes from the field's
resolved offset up to but excluding the first NUL byte (or to the record's
end if no NUL occurs), never includes the terminator, and stays within the
record's own byte range. -/
theorem textField_scan_bounded (r : List Nat) (c : CookieRecord)
    (h : decodeCookie r = some c) :
    (c.name = (r.drop (recField r 20)).takeWhile (fun b => b != 0) ∧
     c.value = (r.drop (recField r 28)).takeWhile (fun b => b != 0) ∧
     c.domain = (r.drop (recField r 16)).takeWhile (fun b => b != 0) ∧
     c.path = (r.drop (recField r 24)).takeWhile (fun b => b != 0)) ∧
    (∀ f ∈ [c.name, c.value, c.domain, c.path],
      0 ∉ f ∧ ∃ pre post, r = pre ++ f ++ post) := by
  obtain ⟨h56, h16, h20, h24, h28, hc⟩ := decodeCookie_inv h
  subst hc
  have hfield : ∀ off : Nat, 0 ∉ (r.drop off).takeWhile (fun b => b != 0) ∧
      ∃ pre post, r = pre ++ (r.drop off).takeWhile (fun b => b != 0) ++ post := by
    intro off
    constructor
    · intro hmem
      have := List.mem_takeWhile_imp hmem
      simp at this
    · refine ⟨r.take off, (r.drop off).dropWhile (fun b => b != 0), ?_⟩
      rw [List.append_assoc, List.takeWhile_append_dropWhile, List.take_append_drop]
  refine ⟨⟨?_, ?_, ?_, ?_⟩, ?_⟩
  · simp [decodedRecord, scanUntilNullByte_eq_takeWhile]
  · simp [decodedRecord, scanUntilNullByte_eq_takeWhile]
  · simp [decodedRecord, scanUntilNullByte_eq_takeWhile]
  · simp [decodedRecord, scanUntilNullByte_eq_takeWhile]
  · intro f hf
    simp only [decodedRecord, scanUntilNullByte_eq_takeWhile, List.mem_cons,
      List.not_mem_nil, or_false] at hf
    rcases hf with hf | hf | hf | hf <;> (subst hf; exact hfield _)

end BinaryCookie

namespace BinaryCookie

theorem recField_eq_leVal (r : List Nat) (i : Nat) (hb : ∀ b ∈ r, b < 256) :
    recField r i = leVal ((r.drop i).take 4) := by
  have hsub : ∀ b ∈ ((r.drop i).take 4).reverse, b < 256 := by
    intro b hbm
    rw [List.mem_reverse] at hbm
    exact hb b (List.mem_of_mem_drop (List.mem_of_mem_take hbm))
  rw [recField, reverseByteSlice_eq_reverse,
    convertHexToUint_eq_beVal _ hsub (by simp), beVal_reverse_eq_leVal]

/-- C5: the little-endian 32-bit flags value at record bytes `[8,12)` maps
0 to None, 1 to Secure, 4 to HttpOnly, 5 to Secure+HttpOnly, and every
other value to Unknown, and the decoded record keeps the raw record bytes
(hence the raw flags value) for inspection. -/
theorem flags_mapping (r : List Nat) (c : CookieRecord)
    (h : decodeCookie r = some c) (hb : ∀ b ∈ r, b < 256) :
    c.flags = flagsText (leVal ((r.drop 8).take 4)) ∧
    flagsText 0 = "None" ∧ flagsText 1 = "Secure" ∧ flagsText 4 = "HttpOnly" ∧
    flagsText 5 = "Secure; HttpOnly" ∧
    (∀ v, v ≠ 0 → v ≠ 1 → v ≠ 4 → v ≠ 5 → flagsText v = "Unknown") ∧
    c.rawBytes = r := by
  obtain ⟨-, -, -, -, -, hc⟩ := decodeCookie_inv h
  subst hc
  refine ⟨?_, rfl, rfl, rfl, rfl, ?_, rfl⟩
  · rw [decodedRecord]
    rw [recField_eq_leVal r 8 hb]
  · intro v h0 h1 h4 h5
    rw [flagsText.eq_def]
    split <;> simp_all

/-- A well-formed 64-byte record: flags 5, name `id` at offset 56, domain
at 59, path at 61, and a value at 63 with no NUL before the record end. -/
def sampleRecord : List Nat :=
  [64, 0, 0, 0, 0, 0, 0, 0, 5, 0, 0, 0, 0, 0, 0, 0,
   59, 0, 0, 0, 56, 0, 0, 0, 61, 0, 0, 0, 63, 0, 0, 0,
   0, 0, 0, 0, 0, 0, 0, 0, 0, 0, 0, 0, 0, 0, 0, 0,
   0, 0, 0, 0, 0, 0, 0, 0, 105, 100, 0, 99, 0, 47, 0, 98]

/-- The record `decodeCookie` produces from `sampleRecord`. -/
def sampleCookie : CookieRecord :=
  { rawBytes := sampleRecord
    size := 64
    name := [105, 100]
    value := [98]
    domain := [99]
    path := [47]
    flags := "Secure; HttpOnly"
    expires := 978307200
    lastAccessed := 978307200 }

/-- C3 witness: on the concrete record `sampleRecord` the decoded text
fields are exactly the NUL-delimited byte runs at their offsets. -/
theorem textField_scan_bounded_witness :
    (sampleCookie.name =
       (sampleRecord.drop (recField sampleRecord 20)).takeWhile (fun b => b != 0) ∧
     sampleCookie.value =
       (sampleRecord.drop (recField sampleRecord 28)).takeWhile (fun b => b != 0) ∧
     sampleCookie.domain =
       (sampleRecord.drop (recField sampleRecord 16)).takeWhile (fun b => b != 0) ∧
     sampleCookie.path =
       (sampleRecord.drop (recField sampleRecord 24)).takeWhile (fun b => b != 0)) ∧
    (∀ f ∈ [sampleCookie.name, sampleCookie.value, sampleCookie.domain, sampleCookie.path],
      0 ∉ f ∧ ∃ pre post, sampleRecord = pre ++ f ++ post) :=
  textField_scan_bounded sampleRecord sampleCookie (by decide)

/-- C5 witness: the concrete record `sampleRecord` has raw flags value 5
and decodes to the flag text for Secure+HttpOnly. -/
theorem flags_mapping_witness :
    sampleCookie.flags = flagsText (leVal ((sampleRecord.drop 8).take 4)) ∧
    flagsText 0 = "None" ∧ flagsText 1 = "Secure" ∧ flagsText 4 = "HttpOnly" ∧
    flagsText 5 = "Secure; HttpOnly" ∧
    (∀ v, v ≠ 0 → v ≠ 1 → v ≠ 4 → v ≠ 5 → flagsText v = "Unknown") ∧
    sampleCookie.rawBytes = sampleRecord :=
  flags_mapping sampleRecord sampleCookie (by decide) (by decide)

/-- A 56-byte record all four of whose field offsets equal the record
length. -/
def oobRecord : List Nat :=
  [56, 0, 0, 0, 0, 0, 0, 0, 0, 0, 0, 0, 0, 0, 0, 0,
   56, 0, 0, 0, 56, 0, 0, 0, 56, 0, 0, 0, 56, 0, 0, 0,
   0, 0, 0, 0, 0, 0, 0, 0, 0, 0, 0, 0, 0, 0, 0, 0,
   0, 0, 0, 0, 0, 0, 0, 0]

/-- C8 counterexample: a record whose every field offset equals the record
length (offset ≥ length, as the claim reads) does not yield an
OffsetOutOfRange error — it decodes successfully with empty text fields. -/
theorem decodeCookie_offset_eq_len_succeeds :
    recField oobRecord 20 = oobRecord.length ∧
    decodeCookie oobRecord =
      some { rawBytes := oobRecord, size := 56, name := [], value := [],
             domain := [], path := [], flags := "None",
             expires := 978307200, lastAccessed := 978307200 } := by
  decide

/-- C8 amended: decoding a malformed record produces no typed error at
all: a record shorter than 56 bytes, or one with a field offset strictly
greater than the record length, makes a slice expression panic (modelled
`none`), terminating the process; an offset equal to the record length
decodes successfully with an empty text field. -/
theorem decodeCookie_malformed_panics (r : List Nat) :
    (r.length < 56 → decodeCookie r = none) ∧
    (r.length < recField r 16 → decodeCookie r = none) ∧
    (r.length < recField r 20 → decodeCookie r = none) ∧
    (r.length < recField r 24 → decodeCookie r = none) ∧
    (r.length < recField r 28 → decodeCookie r = none) := by
  have key : ∀ hbad : ¬(56 ≤ r.length ∧ recField r 16 ≤ r.length ∧
      recField r 20 ≤ r.length ∧ recField r 24 ≤ r.length ∧
      recField r 28 ≤ r.length), decodeCookie r = none := by
    intro hbad
    cases hd : decodeCookie r with
    | none => rfl
    | some c =>
      obtain ⟨h1, h2, h3, h4, h5, -⟩ := decodeCookie_inv hd
      exact absurd ⟨h1, h2, h3, h4, h5⟩ hbad
  refine ⟨fun h => key (by omega), fun h => key (by omega), fun h => key (by omega),
    fun h => key (by omega), fun h => key (by omega)⟩

end BinaryCookie

namespace BinaryCookie

theorem float64TruncToInt_bounds (bits : Nat) :
    -(2 ^ 63) ≤ float64TruncToInt bits ∧ float64TruncToInt bits < 2 ^ 63 := by
  simp only [float64TruncToInt]
  split_ifs <;> omega

theorem int64Wrap_eq_self (x : Int) (h1 : -(2 ^ 63) ≤ x) (h2 : x < 2 ^ 63) :
    int64Wrap x = x := by
  unfold int64Wrap
  omega

/-- C4: the EpochConverter is a pure function of its 8 input bytes: it
decodes them as a little-endian 64-bit pattern, truncates the IEEE-754
double with that bit pattern (seconds since 2001-01-01T00:00:00Z) to an
integer, and adds 978307200 to yield Unix seconds (exactly so whenever the
64-bit addition cannot wrap); the 8 bytes encoding the double `0.0` decode
to exactly Unix seconds 978307200. -/
theorem epochConverter_le_truncate (bs : List Nat) (h8 : bs.length = 8)
    (hb : ∀ b ∈ bs, b < 256) :
    convertHexToCoreDataTime bs =
      int64Wrap (float64TruncToInt (leVal bs) + 978307200) ∧
    (float64TruncToInt (leVal bs) + 978307200 < 2 ^ 63 →
      convertHexToCoreDataTime bs = float64TruncToInt (leVal bs) + 978307200) ∧
    convertHexToCoreDataTime [0, 0, 0, 0, 0, 0, 0, 0] = 978307200 := by
  have hr : convertHexToUint (reverseByteSlice bs) = leVal bs := by
    rw [reverseByteSlice_eq_reverse,
      convertHexToUint_eq_beVal _ (fun b hbm => hb b (List.mem_reverse.mp hbm)) (by simp [h8]),
      beVal_reverse_eq_leVal]
  refine ⟨by rw [convertHexToCoreDataTime, hr], ?_, by decide⟩
  intro hlt
  rw [convertHexToCoreDataTime, hr]
  have hbd := float64TruncToInt_bounds (leVal bs)
  exact int64Wrap_eq_self _ (by omega) hlt

/-- C4 witness: the little-endian bytes of the double `1.0`
(bit pattern 0x3FF0000000000000) truncate to 1 and decode to Unix seconds
978307201, and the all-zero bytes decode to 978307200. -/
theorem epochConverter_le_truncate_witness :
    convertHexToCoreDataTime [0, 0, 0, 0, 0, 0, 240, 63] =
      int64Wrap (float64TruncToInt (leVal [0, 0, 0, 0, 0, 0, 240, 63]) + 978307200) ∧
    (float64TruncToInt (leVal [0, 0, 0, 0, 0, 0, 240, 63]) + 978307200 < 2 ^ 63 →
      convertHexToCoreDataTime [0, 0, 0, 0, 0, 0, 240, 63] =
        float64TruncToInt (leVal [0, 0, 0, 0, 0, 0, 240, 63]) + 978307200) ∧
    convertHexToCoreDataTime [0, 0, 0, 0, 0, 0, 0, 0] = 978307200 :=
  epochConverter_le_truncate [0, 0, 0, 0, 0, 0, 240, 63] (by decide) (by decide)

/-- A 3-page container: magic `cook`, page count 3, page sizes 4, 8 and 4,
header size 20, and 16 payload bytes 101..116. -/
def cursorBugData : List Nat :=
  [99, 111, 111, 107, 0, 0, 0, 3, 0, 0, 0, 4, 0, 0, 0, 8, 0, 0, 0, 4,
   101, 102, 103, 104, 105, 106, 107, 108, 109, 110, 111, 112, 113, 114, 115, 116]

/-- C2 is false of the code: on `cursorBugData` the PageSplitter slices
the second (non-final) page as `data[headerSize+cursor : headerSize+size]`,
yielding bytes `[24,28)` of the buffer, where the claim's cumulative span
`[24, 24+8)` is bytes `[24,32)`; bytes `[28,32)` of the buffer end up in no
page. -/
theorem pageSplitter_cursor_bug :
    extractPages cursorBugData =
      some ⟨[[101, 102, 103, 104], [105, 106, 107, 108], [113, 114, 115, 116]],
            3, [4, 8, 4], 20⟩ ∧
    (cursorBugData.drop 24).take 8 = [105, 106, 107, 108, 109, 110, 111, 112] ∧
    ([105, 106, 107, 108] : List Nat) ≠ [105, 106, 107, 108, 109, 110, 111, 112] := by
  decide

theorem parseSizeOfPagesAux_some (data : List Nat) :
    ∀ (n start : Nat) (sizes : List Nat),
      parseSizeOfPagesAux data start n = some sizes →
      sizes.length = n ∧
      ∀ i, i < n → sizes.getD i 0 = convertHexToUint ((data.drop (start + 4 * i)).take 4) := by
  intro n
  induction n with
  | zero =>
    intro start sizes h
    simp only [parseSizeOfPagesAux, Option.some.injEq] at h
    subst h
    exact ⟨rfl, fun i hi => absurd hi (by omega)⟩
  | succ n ih =>
    intro start sizes h
    rw [parseSizeOfPagesAux] at h
    rcases Option.bind_eq_some.mp h with ⟨s, hs, h⟩
    rcases Option.bind_eq_some.mp h with ⟨rest, hrest, h⟩
    simp only [Option.pure_def, Option.some.injEq] at h
    subst h
    obtain ⟨-, -, hs3⟩ := goSlice_inv hs
    obtain ⟨hl, hent⟩ := ih (start + 4) rest hrest
    refine ⟨by simp [hl], ?_⟩
    intro i hi
    match i with
    | 0 =>
      have h4 : start + 4 - start = 4 := by omega
      simp [hs3, h4]
    | Nat.succ j =>
      have := hent j (by omega)
      have harith : start + 4 + 4 * j = start + 4 * (j + 1) := by omega
      simpa [harith] using this

/-- C7: the HeaderParser reads `pageCount` as the unsigned 32-bit integer
formed by bytes `[4,8)` in stored (big-endian) order without byte
reversal, reads `pageCount` consecutive big-endian 32-bit page sizes
starting at offset 8, and computes `headerSize = 8 + 4 * pageCount`. -/
theorem headerParser_bigEndian (data : List Nat) (pd : PagesData)
    (h : extractPages data = some pd) (hb : ∀ b ∈ data, b < 256) :
    pd.numPages = beVal ((data.drop 4).take 4) ∧ pd.numPages < 2 ^ 32 ∧
    pd.pageSizes.length = pd.numPages ∧
    (∀ i, i < pd.numPages →
      pd.pageSizes.getD i 0 = beVal ((data.drop (8 + 4 * i)).take 4) ∧
      pd.pageSizes.getD i 0 < 2 ^ 32) ∧
    pd.headerSize = 8 + 4 * pd.numPages := by
  have hbe : ∀ j : Nat, convertHexToUint ((data.drop j).take 4) =
      beVal ((data.drop j).take 4) := by
    intro j
    exact convertHexToUint_eq_beVal _
      (fun b hbm => hb b (List.mem_of_mem_drop (List.mem_of_mem_take hbm))) (by simp)
  have hbound : ∀ j : Nat, beVal ((data.drop j).take 4) < 2 ^ 32 := by
    intro j
    have h1 := beVal_lt ((data.drop j).take 4)
      (fun b hbm => hb b (List.mem_of_mem_drop (List.mem_of_mem_take hbm)))
    have h2 : (256 : Nat) ^ ((data.drop j).take 4).length ≤ 256 ^ 4 :=
      Nat.pow_le_pow_right (by norm_num) (by simp)
    calc beVal ((data.drop j).take 4) < 256 ^ ((data.drop j).take 4).length := h1
      _ ≤ 256 ^ 4 := h2
      _ = 2 ^ 32 := by norm_num
  rw [extractPages] at h
  rcases Option.bind_eq_some.mp h with ⟨hdr, hhdr, h⟩
  rcases Option.bind_eq_some.mp h with ⟨sizes, hsizes, h⟩
  rcases Option.bind_eq_some.mp h with ⟨pgs, hpgs, h⟩
  simp only [Option.pure_def, Option.some.injEq] at h
  subst h
  obtain ⟨-, -, hhdr3⟩ := goSlice_inv hhdr
  subst hhdr3
  obtain ⟨hlen, hent⟩ := parseSizeOfPagesAux_some data _ 8 sizes hsizes
  have h84 : (8 : Nat) - 4 = 4 := by omega
  refine ⟨?_, ?_, ?_, ?_, ?_⟩
  · show convertHexToUint ((data.drop 4).take (8 - 4)) = beVal ((data.drop 4).take 4)
    rw [h84]
    exact hbe 4
  · show convertHexToUint ((data.drop 4).take (8 - 4)) < 2 ^ 32
    rw [h84, hbe 4]
    exact hbound 4
  · exact hlen
  · intro i hi
    have hgot := hent i hi
    constructor
    · show sizes.getD i 0 = beVal ((data.drop (8 + 4 * i)).take 4)
      rw [hgot, hbe (8 + 4 * i)]
    · show sizes.getD i 0 < 2 ^ 32
      rw [hgot, hbe (8 + 4 * i)]
      exact hbound (8 + 4 * i)
  · show convertHexToUint ((data.drop 4).take (8 - 4)) * 4 + 8 =
      8 + 4 * convertHexToUint ((data.drop 4).take (8 - 4))
    omega

end BinaryCookie

namespace BinaryCookie

theorem readCookieOffsets_length (p : List Nat) :
    ∀ (n start : Nat) (offs : List Nat),
      readCookieOffsets p start n = some offs → offs.length = n := by
  intro n
  induction n with
  | zero =>
    intro start offs h
    simp only [readCookieOffsets, Option.some.injEq] at h
    subst h
    rfl
  | succ n ih =>
    intro start offs h
    rw [readCookieOffsets] at h
    rcases Option.bind_eq_some.mp h with ⟨s, hs, h⟩
    rcases Option.bind_eq_some.mp h with ⟨rest, hrest, h⟩
    simp only [Option.pure_def, Option.some.injEq] at h
    subst h
    simp [ih (start + 4) rest hrest]

theorem carveRecords_length (p : List Nat) :
    ∀ (offs : List Nat) (recs : List (List Nat)),
      carveRecords p offs = some recs → recs.length = offs.length := by
  intro offs
  induction offs with
  | nil =>
    intro recs h
    simp only [carveRecords, Option.some.injEq] at h
    subst h
    rfl
  | cons off rest ih =>
    intro recs h
    cases rest with
    | nil =>
      rw [carveRecords] at h
      obtain ⟨r, -, hrec⟩ := Option.map_eq_some'.mp h
      simp [← hrec]
    | cons off2 rest2 =>
      rw [carveRecords] at h
      rcases Option.bind_eq_some.mp h with ⟨r, hr, h⟩
      rcases Option.bind_eq_some.mp h with ⟨others, hothers, h⟩
      simp only [Option.pure_def, Option.some.injEq] at h
      subst h
      simp [ih others hothers]

theorem extractRecordsFromPage_count (p : List Nat) (recs : List (List Nat))
    (h : extractRecordsFromPage p = some recs) :
    parseCookieCount p = some recs.length := by
  rw [extractRecordsFromPage] at h
  rcases Option.bind_eq_some.mp h with ⟨count, hcount, h⟩
  rcases Option.bind_eq_some.mp h with ⟨offs, hoffs, h⟩
  rw [hcount, carveRecords_length p offs recs h,
    readCookieOffsets_length p count 8 offs hoffs]

theorem extractCookiesFromPages_counts :
    ∀ (pgs : List (List Nat)) (recss : List (List (List Nat))),
      extractCookiesFromPages pgs = some recss →
      List.Forall₂ (fun p recs => parseCookieCount p = some (List.length recs)) pgs recss := by
  intro pgs
  induction pgs with
  | nil =>
    intro recss h
    simp only [extractCookiesFromPages, Option.some.injEq] at h
    subst h
    exact List.Forall₂.nil
  | cons p rest ih =>
    intro recss h
    rw [extractCookiesFromPages] at h
    rcases Option.bind_eq_some.mp h with ⟨recs, hrecs, h⟩
    rcases Option.bind_eq_some.mp h with ⟨others, hothers, h⟩
    simp only [Option.pure_def, Option.some.injEq] at h
    subst h
    exact List.Forall₂.cons (extractRecordsFromPage_count p recs hrecs) (ih others hothers)

theorem decodeCookies_length :
    ∀ (rs : List (List Nat)) (cs : List CookieRecord),
      decodeCookies rs = some cs → cs.length = rs.length := by
  intro rs
  induction rs with
  | nil =>
    intro cs h
    simp only [decodeCookies, Option.some.injEq] at h
    subst h
    rfl
  | cons r rest ih =>
    intro cs h
    rw [decodeCookies] at h
    rcases Option.bind_eq_some.mp h with ⟨c, hc, h⟩
    rcases Option.bind_eq_some.mp h with ⟨others, hothers, h⟩
    simp only [Option.pure_def, Option.some.injEq] at h
    subst h
    simp [ih others hothers]

/-- C9: when the pipeline completes, the number of decoded CookieRecords
equals the sum over the pages of that page's parsed cookie count, and the
records are decoded from the concatenation of the per-page record lists in
original page order and, within a page, offset-table order. -/
theorem pipeline_count_order (data : List Nat) (cookies : List CookieRecord)
    (h : decodePipeline data = some cookies) :
    ∃ pd recss, extractPages data = some pd ∧
      extractCookiesFromPages pd.pages = some recss ∧
      List.Forall₂ (fun p recs => parseCookieCount p = some (List.length recs))
        pd.pages recss ∧
      cookies.length = (recss.map List.length).sum ∧
      decodeCookies recss.flatten = some cookies := by
  rw [decodePipeline] at h
  rcases Option.bind_eq_some.mp h with ⟨pd, hpd, h⟩
  rcases Option.bind_eq_some.mp h with ⟨recss, hrecss, h⟩
  refine ⟨pd, recss, hpd, hrecss, extractCookiesFromPages_counts pd.pages recss hrecss,
    ?_, h⟩
  rw [decodeCookies_length recss.flatten cookies h, List.length_flatten]

/-- The single page of the end-to-end sample container: cookie count 1,
one offset-table entry 12, followed by `sampleRecord`. -/
def samplePage : List Nat :=
  [0, 0, 0, 0, 1, 0, 0, 0, 12, 0, 0, 0] ++ sampleRecord

/-- A complete single-page, single-cookie container: magic `cook`, page
count 1, page size 76, then `samplePage`. -/
def fullContainer : List Nat :=
  cookMagic ++ [0, 0, 0, 1, 0, 0, 0, 76] ++ samplePage

/-- C9 witness: the concrete container `fullContainer` decodes to exactly
one cookie, matching the single page's parsed cookie count of 1. -/
theorem pipeline_count_order_witness :
    ∃ pd recss, extractPages fullContainer = some pd ∧
      extractCookiesFromPages pd.pages = some recss ∧
      List.Forall₂ (fun p recs => parseCookieCount p = some (List.length recs))
        pd.pages recss ∧
      ([sampleCookie] : List CookieRecord).length = (recss.map List.length).sum ∧
      decodeCookies recss.flatten = some [sampleCookie] :=
  pipeline_count_order fullContainer [sampleCookie] (by decide)

/-- An 8-byte container: magic `cook` and page count 0. -/
def emptyContainer : List Nat := [99, 111, 111, 107, 0, 0, 0, 0]

/-- The pages object `extractPages` produces from `emptyContainer`. -/
def emptyPagesData : PagesData := ⟨[], 0, [], 8⟩

/-- C7 witness: on the concrete container `emptyContainer` the header
parse reads page count 0 big-endian and header size 8. -/
theorem headerParser_bigEndian_witness :
    emptyPagesData.numPages = beVal ((emptyContainer.drop 4).take 4) ∧
    emptyPagesData.numPages < 2 ^ 32 ∧
    emptyPagesData.pageSizes.length = emptyPagesData.numPages ∧
    (∀ i, i < emptyPagesData.numPages →
      emptyPagesData.pageSizes.getD i 0 = beVal ((emptyContainer.drop (8 + 4 * i)).take 4) ∧
      emptyPagesData.pageSizes.getD i 0 < 2 ^ 32) ∧
    emptyPagesData.headerSize = 8 + 4 * emptyPagesData.numPages :=
  headerParser_bigEndian emptyContainer emptyPagesData (by decide) (by decide)

end BinaryCookie
